import Mathlib

/-!
Verification of the BIN-RPC value codec and frame handling of `pybinrpc`
(`pybinrpc/support.py` and `pybinrpc/const.py`).

Modelling conventions (shallow embedding):

* Byte strings (`bytes`/`memoryview`) are `List Nat`; every byte produced by
  the encoders is `< 256` by construction, and well-formedness hypotheses
  require it for inputs.
* Python `str` values are modelled by their byte sequence under the chosen
  text encoding.  The text codec itself (`str.encode` / `bytes.decode`,
  standard-library code outside this repository) is a bijection between
  representable strings and their byte sequences, so a `String`-typed value
  is carried as the `List Nat` of its encoded bytes and the `encoding`
  parameters of the Python functions disappear.
* Python `int` is unbounded, hence `ℤ`; Python `float` arithmetic in the
  double codec is modelled exactly over `ℚ` (in particular
  `math.floor(math.log(v, 2))` is the exact `Int.log 2 v`); the claims about
  doubles are stated with explicit tolerances, never bit-exactness.
* `struct.pack(">I", n)` demands `0 ≤ n < 2 ^ 32` and raises otherwise; the
  model `be_u32` is total and theorems that depend on an exact header carry
  the corresponding bound as a hypothesis.
* Raising (`struct.error`, `IndexError`, `ValueError`) is modelled with
  `Except DecErr`.  Note that a Python `memoryview` slice `buf[ofs:ofs+n]`
  silently truncates at the end of the buffer — `dec_string` reproduces
  that, it does not raise.
* The recursive decoder `dec_data` is given fuel bounding the recursion
  depth.  A real run can nest at most `len(buf) / 4` levels deep because
  every level must first read its 4-byte type tag inside the buffer, so the
  wrapper's fuel `buf.length + 1` is never exhausted on runs the Python
  code performs; exhaustion is reported as the distinguished error
  `DecErr.fuel`.
-/

namespace BinRpc

/-- Wire values exchanged by BIN-RPC: the closed union handled by
`enc_data`/`dec_data` in `support.py` (strings as encoded byte lists, see
the module comment). -/
inductive Value where
  | int (n : ℤ)
  | bool (b : Bool)
  | str (s : List Nat)
  | double (q : ℚ)
  | arr (a : List Value)
  | strct (d : List (List Nat × Value))

/-- Failure modes of the decoders: `range` is a `struct.error`/`IndexError`
out-of-range read, `unsupportedType` the `ValueError` for an unknown type
tag, `badFrame` the `ValueError` for an invalid frame, and `fuel` the
(unreachable on real runs) exhaustion of the modelling fuel. -/
inductive DecErr where
  | range
  | unsupportedType (t : Nat)
  | badFrame
  | fuel

/-- Constant `T_INTEGER` of `const.py`. -/
def T_INTEGER : Nat := 0x00000001

/-- Constant `T_BOOL` of `const.py`. -/
def T_BOOL : Nat := 0x00000002

/-- Constant `T_STRING` of `const.py`. -/
def T_STRING : Nat := 0x00000003

/-- Constant `T_DOUBLE` of `const.py`. -/
def T_DOUBLE : Nat := 0x00000004

/-- Constant `T_ARRAY` of `const.py`. -/
def T_ARRAY : Nat := 0x00000100

/-- Constant `T_STRUCT` of `const.py`. -/
def T_STRUCT : Nat := 0x00000101

/-- Constant `T_BINARY` of `const.py` (declared there but handled by no
decoder branch). -/
def T_BINARY : Nat := 0x0000000E

/-- Request magic `HDR_REQ = b"Bin\x00"` of `const.py`. -/
def HDR_REQ : List Nat := [0x42, 0x69, 0x6E, 0x00]

/-- Response magic `HDR_RES = b"Bin\x01"` of `const.py`. -/
def HDR_RES : List Nat := [0x42, 0x69, 0x6E, 0x01]

/-- Python `_be_u32`: `struct.pack(">I", n)`, the four big-endian bytes of
`n`.  `pack` raises unless `0 ≤ n < 2 ^ 32`; the model is total and yields
the bytes of `n % 2 ^ 32`. -/
def be_u32 (n : Nat) : List Nat :=
  [n / 16777216 % 256, n / 65536 % 256, n / 256 % 256, n % 256]

/-- Python `_rd_u32`: `struct.unpack_from(">I", buf, ofs)`, reading four
big-endian bytes; `unpack_from` raises `struct.error` when fewer than four
bytes remain. -/
def rd_u32 (buf : List Nat) (ofs : Nat) : Except DecErr (Nat × Nat) :=
  if ofs + 4 ≤ buf.length then
    .ok (buf.getD ofs 0 * 16777216 + buf.getD (ofs + 1) 0 * 65536 +
         buf.getD (ofs + 2) 0 * 256 + buf.getD (ofs + 3) 0, ofs + 4)
  else .error .range

/-- Python `enc_string`: type tag, byte length, bytes. -/
def enc_string (s : List Nat) : List Nat :=
  be_u32 T_STRING ++ be_u32 s.length ++ s

/-- Python `enc_bool`: type tag and one byte `\x01`/`\x00`. -/
def enc_bool (v : Bool) : List Nat :=
  be_u32 T_BOOL ++ [if v then 1 else 0]

/-- Python `enc_integer`: type tag and `int(n) & 0xFFFFFFFF` (the low 32
bits; Python `&` of an arbitrary integer with `0xFFFFFFFF` is `n mod 2^32`,
always in `[0, 2^32)`). -/
def enc_integer (n : ℤ) : List Nat :=
  be_u32 T_INTEGER ++ be_u32 (n % (2 ^ 32)).toNat

/-- Truncation toward zero, the behaviour of Python `int(...)` on a
number. -/
def truncQ (q : ℚ) : ℤ :=
  if q < 0 then -⌊-q⌋ else ⌊q⌋

/-- Python `_enc_double_parts`: mantissa/exponent with
`value ≈ (mantissa / 2^30) * 2^exponent`.  `math.floor(math.log(|v|, 2))`
is modelled exactly as `Int.log 2 |v|`, and `int(...)` as truncation toward
zero.  Returns `(mantissa, exponent)` in that order, as the source does. -/
def enc_double_parts (value : ℚ) : ℤ × ℤ :=
  if value = 0 then (0, 0)
  else
    let exponent : ℤ := Int.log 2 |value| + 1
    let mantissa : ℤ := truncQ (value * (2 : ℚ) ^ (-exponent) * 2 ^ 30)
    (mantissa, exponent)

/-- Python `enc_double`: type tag, then `struct.pack(">iI", e, m & 0xFFFFFFFF)`.
`">i"` stores the exponent's 32-bit two's-complement bytes (raising unless
`-2^31 ≤ e < 2^31`), which for in-range `e` are the bytes of `e mod 2^32`;
`m & 0xFFFFFFFF` is `m mod 2^32`. -/
def enc_double (v : ℚ) : List Nat :=
  be_u32 T_DOUBLE ++ be_u32 ((enc_double_parts v).2 % (2 ^ 32)).toNat ++
    be_u32 ((enc_double_parts v).1 % (2 ^ 32)).toNat

/-- Python `_dec_string`: read a length, then slice.  The `memoryview`
slice `buf[ofs : ofs + length]` silently truncates at the buffer's end and
the returned offset `ofs + length` may lie beyond it — this models the
source faithfully and matters for under-reported frames. -/
def dec_string (buf : List Nat) (ofs : Nat) : Except DecErr (List Nat × Nat) :=
  match rd_u32 buf ofs with
  | .error er => .error er
  | .ok (length, o) => .ok ((buf.drop o).take length, o + length)

/-- Python `_dec_bool`: `buf[ofs] == 1` (an `IndexError` past the end). -/
def dec_bool (buf : List Nat) (ofs : Nat) : Except DecErr (Bool × Nat) :=
  if ofs < buf.length then .ok (buf.getD ofs 0 == 1, ofs + 1)
  else .error .range

/-- Python `_dec_int`: read an unsigned 32-bit value, then if bit 31 is set
replace `v` by `-((~v + 1) & 0xFFFFFFFF)`; on Python's unbounded integers
`~v + 1 = -v` and `& 0xFFFFFFFF` is `mod 2^32`. -/
def dec_int (buf : List Nat) (ofs : Nat) : Except DecErr (ℤ × Nat) :=
  match rd_u32 buf ofs with
  | .error er => .error er
  | .ok (v, o) =>
    if v &&& 0x80000000 ≠ 0 then .ok (-((-(v : ℤ)) % (2 ^ 32)), o)
    else .ok ((v : ℤ), o)

/-- Python `_dec_double`: `struct.unpack_from(">i", ...)` reads the four
exponent bytes as two's complement (the unsigned value minus `2^32` when
bit 31 is set), `_rd_u32` reads the mantissa unsigned, and the result is
`(mantissa / 2^30) * 2^exponent`. -/
def dec_double (buf : List Nat) (ofs : Nat) : Except DecErr (ℚ × Nat) :=
  match rd_u32 buf ofs with
  | .error er => .error er
  | .ok (eu, o) =>
    let e : ℤ := if eu &&& 0x80000000 ≠ 0 then (eu : ℤ) - 2 ^ 32 else (eu : ℤ)
    match rd_u32 buf o with
    | .error er => .error er
    | .ok (mu32, o2) => .ok (((mu32 : ℚ) / 2 ^ 30) * (2 : ℚ) ^ e, o2)

/-- Assignment `outd[key] = val` on a Python `dict` viewed as an ordered
association list: an existing key keeps its position and gets the new
value, a new key is appended. -/
def dict_insert (d : List (List Nat × Value)) (k : List Nat) (v : Value) :
    List (List Nat × Value) :=
  if d.any (fun p => p.1 == k) then
    d.map (fun p => if p.1 == k then (p.1, v) else p)
  else d ++ [(k, v)]

/-- Loop body of `dec_data`'s `T_ARRAY` branch: decode `n` elements with
`dec`, appending each to the accumulator exactly as the Python `for` loop
does with `outl.append(val)`. -/
def decElems (dec : List Nat → Nat → Except DecErr (Value × Nat)) :
    Nat → List Nat → Nat → List Value → Except DecErr (List Value × Nat)
  | 0, _, ofs, acc => .ok (acc, ofs)
  | n + 1, buf, ofs, acc =>
    match dec buf ofs with
    | .error er => .error er
    | .ok (v, o) => decElems dec n buf o (acc ++ [v])

/-- Loop body of `dec_data`'s `T_STRUCT` branch: decode `n` key/value pairs
with `dec`, performing `outd[key] = val` on the accumulated dict. -/
def decEntries (dec : List Nat → Nat → Except DecErr (Value × Nat)) :
    Nat → List Nat → Nat → List (List Nat × Value) →
      Except DecErr (List (List Nat × Value) × Nat)
  | 0, _, ofs, acc => .ok (acc, ofs)
  | n + 1, buf, ofs, acc =>
    match dec_string buf ofs with
    | .error er => .error er
    | .ok (k, o) =>
      match dec buf o with
      | .error er => .error er
      | .ok (v, o2) => decEntries dec n buf o2 (dict_insert acc k v)

/-- Python `dec_data`, fuel-indexed: read a type tag and dispatch exactly in
the source's branch order (string, bool, integer, double, array, struct),
falling through to `ValueError` for an unsupported tag.  The fuel only
bounds the nesting depth (see the module comment). -/
def decData : Nat → List Nat → Nat → Except DecErr (Value × Nat)
  | 0, _, _ => .error .fuel
  | fuel + 1, buf, ofs =>
    match rd_u32 buf ofs with
    | .error er => .error er
    | .ok (t, o) =>
      if t = T_STRING then
        match dec_string buf o with
        | .error er => .error er
        | .ok (s, o2) => .ok (.str s, o2)
      else if t = T_BOOL then
        match dec_bool buf o with
        | .error er => .error er
        | .ok (b, o2) => .ok (.bool b, o2)
      else if t = T_INTEGER then
        match dec_int buf o with
        | .error er => .error er
        | .ok (n, o2) => .ok (.int n, o2)
      else if t = T_DOUBLE then
        match dec_double buf o with
        | .error er => .error er
        | .ok (q, o2) => .ok (.double q, o2)
      else if t = T_ARRAY then
        match rd_u32 buf o with
        | .error er => .error er
        | .ok (n, o2) =>
          match decElems (fun b o3 => decData fuel b o3) n buf o2 [] with
          | .error er => .error er
          | .ok (vs, o4) => .ok (.arr vs, o4)
      else if t = T_STRUCT then
        match rd_u32 buf o with
        | .error er => .error er
        | .ok (n, o2) =>
          match decEntries (fun b o3 => decData fuel b o3) n buf o2 [] with
          | .error er => .error er
          | .ok (d, o4) => .ok (.strct d, o4)
      else .error (.unsupportedType t)

/-- Python `dec_data` (default `ofs = 0`): the fuel `buf.length + 1`
strictly exceeds the deepest nesting any run can reach, since every
recursion level must read a fresh 4-byte type tag inside `buf`. -/
def dec_data (buf : List Nat) (ofs : Nat := 0) : Except DecErr (Value × Nat) :=
  decData (buf.length + 1) buf ofs

mutual

/-- Python `enc_data`: dispatch on the value's kind.  The source tests
`bool` before `int` because Python's `bool` is a subtype of `int`; here the
constructors are disjoint.  The final fallback (string-encode `str(v)` for
foreign host types) has no counterpart because `Value` is closed.  The
bodies of Python's `enc_array` and `enc_struct` are inlined in the last two
branches (the standalone `enc_array`/`enc_struct` below restate them). -/
def enc_data : Value → List Nat
  | .bool b => enc_bool b
  | .int n => enc_integer n
  | .double q => enc_double q
  | .str s => enc_string s
  | .arr a => be_u32 T_ARRAY ++ be_u32 a.length ++ enc_list a
  | .strct d => be_u32 T_STRUCT ++ be_u32 d.length ++ enc_entries d

/-- Encoding of the elements of an array, the `for el in a` loop of
Python's `enc_array`. -/
def enc_list : List Value → List Nat
  | [] => []
  | v :: vs => enc_data v ++ enc_list vs

/-- Encoding of the key/value pairs of a struct, the `for k, v in d.items()`
loop of Python's `enc_struct`. -/
def enc_entries : List (List Nat × Value) → List Nat
  | [] => []
  | (k, v) :: d => be_u32 k.length ++ k ++ enc_data v ++ enc_entries d

end

/-- Python `enc_array`: tag, element count, then each element in order. -/
def enc_array (a : List Value) : List Nat :=
  be_u32 T_ARRAY ++ be_u32 a.length ++ enc_list a

/-- Python `enc_struct`: tag, pair count, then each key (length-prefixed)
and value in order. -/
def enc_struct (d : List (List Nat × Value)) : List Nat :=
  be_u32 T_STRUCT ++ be_u32 d.length ++ enc_entries d

/-- Well-formed byte strings: genuine bytes, length representable in the
4-byte length field. -/
def wfBytes (s : List Nat) : Bool :=
  s.all (· < 256) && decide (s.length < 2 ^ 32)

mutual

/-- Values in the scope of the round-trip claim: built from 32-bit signed
integers, booleans, representable strings, and arrays/structs of these
(no doubles — the double format is lossy by construction), with counts that
fit the 4-byte length fields and distinct struct keys (a Python `dict`
cannot hold duplicates). -/
def wfValue : Value → Bool
  | .int n => decide (-(2 ^ 31) ≤ n) && decide (n < 2 ^ 31)
  | .bool _ => true
  | .str s => wfBytes s
  | .double _ => false
  | .arr a => decide (a.length < 2 ^ 32) && wfList a
  | .strct d =>
    decide (d.length < 2 ^ 32) && decide ((d.map Prod.fst).Nodup) && wfEntries d

/-- All elements well-formed. -/
def wfList : List Value → Bool
  | [] => true
  | v :: vs => wfValue v && wfList vs

/-- All keys and values well-formed. -/
def wfEntries : List (List Nat × Value) → Bool
  | [] => true
  | (k, v) :: d => wfBytes k && wfValue v && wfEntries d

end

/-- Python `enc_request`: body is the length-prefixed method name, the
parameter count, then each parameter; frame is `HDR_REQ`, the total length
`8 + len(body)`, and the body. -/
def enc_request (method : List Nat) (params : List Value) : List Nat :=
  HDR_REQ ++ be_u32 (8 + (be_u32 method.length ++ method ++
      be_u32 params.length ++ enc_list params).length) ++
    (be_u32 method.length ++ method ++ be_u32 params.length ++ enc_list params)

/-- Python `enc_response`: payload is `enc_string("")` when `ret is None`
and `enc_data(ret)` otherwise; body is a zero status word plus the payload;
frame is `HDR_RES`, the total length `8 + len(body)`, and the body. -/
def enc_response (ret : Option Value) : List Nat :=
  HDR_RES ++ be_u32 (8 + ((be_u32 0) ++
      (match ret with | none => enc_string [] | some v => enc_data v)).length) ++
    ((be_u32 0) ++ (match ret with | none => enc_string [] | some v => enc_data v))

/-- Python `dec_request`: reject frames shorter than 8 bytes, with the wrong
magic, or whose 4-byte length field differs from the frame's actual length;
then decode the method name, the parameter count, and that many parameters
from the body. -/
def dec_request (frame : List Nat) : Except DecErr (List Nat × List Value) :=
  if frame.length < 8 then .error .badFrame
  else if frame.take 4 ≠ HDR_REQ then .error .badFrame
  else if (frame.drop 4).take 4 ≠ be_u32 frame.length then .error .badFrame
  else
    match dec_string (frame.drop 8) 0 with
    | .error er => .error er
    | .ok (method, o) =>
      match rd_u32 (frame.drop 8) o with
      | .error er => .error er
      | .ok (n, o2) =>
        match decElems (fun b o3 => dec_data b o3) n (frame.drop 8) o2 [] with
        | .error er => .error er
        | .ok (params, _) => .ok (method, params)

/-- Python `dec_response`: reject invalid frames like `dec_request`; read and
discard the 4-byte status code; return `None` when the body ends there, the
decoded payload value otherwise. -/
def dec_response (frame : List Nat) : Except DecErr (Option Value) :=
  if frame.length < 8 then .error .badFrame
  else if frame.take 4 ≠ HDR_RES then .error .badFrame
  else if (frame.drop 4).take 4 ≠ be_u32 frame.length then .error .badFrame
  else
    match rd_u32 (frame.drop 8) 0 with
    | .error er => .error er
    | .ok (_, o) =>
      if o ≥ (frame.drop 8).length then .ok none
      else
        match dec_data (frame.drop 8) o with
        | .error er => .error er
        | .ok (v, _) => .ok (some v)

/-- Decode attempt on a candidate body of an inbound request: hand
`dec_request` the body re-framed under its true length, which is what the
source's own `enc_request` would have produced (the Frame Layer "attempts
decode" of the bytes it has gathered, §4.2 step 3). -/
def tryDecode (body : List Nat) : Except DecErr (List Nat × List Value) :=
  dec_request (HDR_REQ ++ be_u32 (8 + body.length) ++ body)

/-- Modelled from the spec: the body-growing retry loop of the Frame Layer
(§4.2 steps 2-4); the socket-reading layer itself (`pybinrpc.server` /
`pybinrpc.client`) is not among the sources, only its codec `support.py`
is.  Starting from the `declared_length - 8` bytes the header claims, the
layer attempts a decode; on failure it re-reads one more byte from the
stream (when available) and retries, up to `budget` extra attempts,
otherwise surfacing the failure. -/
def frameGrow (stream : List Nat) : Nat → Nat → Except DecErr (List Nat × List Value)
  | k, 0 => tryDecode ((stream.drop 8).take k)
  | k, budget + 1 =>
    match tryDecode ((stream.drop 8).take k) with
    | .ok r => .ok r
    | .error er => if 8 + k < stream.length then frameGrow stream (k + 1) budget
      else .error er

/-- Modelled from the spec: the Frame Layer's inbound request path (§4.2):
validate the 8-byte header's magic, read the declared length, and run the
body-growing decode loop `frameGrow`. -/
def frameReadRequest (stream : List Nat) (budget : Nat) :
    Except DecErr (List Nat × List Value) :=
  if stream.length < 8 then .error .badFrame
  else if stream.take 4 ≠ HDR_REQ then .error .badFrame
  else
    match rd_u32 stream 4 with
    | .error er => .error er
    | .ok (declared, _) => frameGrow stream (declared - 8) budget

/-- Success test on a decode result. -/
def isOkResult (r : Except DecErr (List Nat × List Value)) : Bool :=
  match r with
  | .ok _ => true
  | .error _ => false

/-! Reading back what was written: each primitive decoder, run at the start
of its own encoding inside an arbitrary buffer `pre ++ (encoded ++ post)`,
returns the encoded datum and stops right after it. -/

theorem length_be_u32 (n : Nat) : (be_u32 n).length = 4 := rfl

theorem getD_pre (pre l : List Nat) (i : Nat) :
    (pre ++ l).getD (pre.length + i) 0 = l.getD i 0 := by
  simp [List.getD, List.getElem?_append_right (Nat.le_add_right pre.length i)]

theorem rd_u32_at (pre t : List Nat) (n : Nat) (hn : n < 2 ^ 32) :
    rd_u32 (pre ++ (be_u32 n ++ t)) pre.length = .ok (n, pre.length + 4) := by
  have hlen : pre.length + 4 ≤ (pre ++ (be_u32 n ++ t)).length := by
    simp [be_u32]
  have k0 : (pre ++ (be_u32 n ++ t)).getD pre.length 0 = n / 16777216 % 256 := by
    simpa [be_u32] using getD_pre pre (be_u32 n ++ t) 0
  have k1 : (pre ++ (be_u32 n ++ t)).getD (pre.length + 1) 0 = n / 65536 % 256 := by
    simpa [be_u32] using getD_pre pre (be_u32 n ++ t) 1
  have k2 : (pre ++ (be_u32 n ++ t)).getD (pre.length + 2) 0 = n / 256 % 256 := by
    simpa [be_u32] using getD_pre pre (be_u32 n ++ t) 2
  have k3 : (pre ++ (be_u32 n ++ t)).getD (pre.length + 3) 0 = n % 256 := by
    simpa [be_u32] using getD_pre pre (be_u32 n ++ t) 3
  unfold rd_u32
  rw [if_pos hlen, k0, k1, k2, k3]
  congr 1
  congr 1
  omega

theorem dec_string_at (pre t s : List Nat) (hs : s.length < 2 ^ 32) :
    dec_string (pre ++ (be_u32 s.length ++ (s ++ t))) pre.length =
      .ok (s, pre.length + 4 + s.length) := by
  unfold dec_string
  rw [rd_u32_at pre (s ++ t) s.length hs]
  dsimp only
  have hd : (pre ++ (be_u32 s.length ++ (s ++ t))).drop (pre.length + 4) = s ++ t := by
    have h1 : (pre ++ be_u32 s.length).length = pre.length + 4 := by simp [be_u32]
    calc (pre ++ (be_u32 s.length ++ (s ++ t))).drop (pre.length + 4)
        = ((pre ++ be_u32 s.length) ++ (s ++ t)).drop (pre ++ be_u32 s.length).length := by
          rw [h1, List.append_assoc]
      _ = s ++ t := List.drop_left _ _
  rw [hd, List.take_left s t]

theorem dec_bool_at (pre t : List Nat) (b : Nat) :
    dec_bool (pre ++ ([b] ++ t)) pre.length = .ok (b == 1, pre.length + 1) := by
  have hlen : pre.length < (pre ++ ([b] ++ t)).length := by simp
  have k0 : (pre ++ ([b] ++ t)).getD pre.length 0 = b := by
    simpa using getD_pre pre ([b] ++ t) 0
  unfold dec_bool
  rw [if_pos hlen, k0]

theorem and_bit31 (u : Nat) :
    (u &&& 0x80000000 ≠ 0) ↔ u / 2 ^ 31 % 2 = 1 := by
  rw [show (0x80000000 : Nat) = 2 ^ 31 from rfl, Nat.and_two_pow]
  cases ht : u.testBit 31 <;>
    simp only [Nat.testBit_to_div_mod, decide_eq_true_eq, decide_eq_false_iff_not] at ht <;>
    simp [ht]

theorem dec_int_at (pre t : List Nat) (n : ℤ) (h1 : -(2 ^ 31) ≤ n) (h2 : n < 2 ^ 31) :
    dec_int (pre ++ (be_u32 (n % (2 ^ 32)).toNat ++ t)) pre.length =
      .ok (n, pre.length + 4) := by
  have hm0 : (0 : ℤ) ≤ n % (2 ^ 32) := Int.emod_nonneg n (by norm_num)
  have hm1 : n % (2 ^ 32) < 2 ^ 32 := Int.emod_lt_of_pos n (by norm_num)
  have hu : ((n % (2 ^ 32)).toNat : ℤ) = n % (2 ^ 32) := Int.toNat_of_nonneg hm0
  have hlt : (n % (2 ^ 32)).toNat < 2 ^ 32 := by omega
  unfold dec_int
  rw [rd_u32_at pre t _ hlt]
  dsimp only
  by_cases hbit : (n % (2 ^ 32)).toNat &&& 0x80000000 ≠ 0
  · rw [if_pos hbit]
    rw [and_bit31] at hbit
    have : -((-(((n % (2 ^ 32)).toNat : ℤ))) % (2 ^ 32)) = n := by omega
    rw [this]
  · rw [if_neg hbit]
    rw [and_bit31] at hbit
    have : (((n % (2 ^ 32)).toNat : ℤ)) = n := by omega
    rw [this]

theorem rd_u32_at2 (buf pre t : List Nat) (n ofs : Nat) (hn : n < 2 ^ 32)
    (hbuf : buf = pre ++ (be_u32 n ++ t)) (hofs : ofs = pre.length) :
    rd_u32 buf ofs = .ok (n, ofs + 4) := by
  subst hbuf; subst hofs; exact rd_u32_at pre t n hn

theorem dec_string_at2 (buf pre t s : List Nat) (ofs : Nat) (hs : s.length < 2 ^ 32)
    (hbuf : buf = pre ++ (be_u32 s.length ++ (s ++ t))) (hofs : ofs = pre.length) :
    dec_string buf ofs = .ok (s, ofs + 4 + s.length) := by
  subst hbuf; subst hofs; exact dec_string_at pre t s hs

theorem dec_bool_at2 (buf pre t : List Nat) (b ofs : Nat)
    (hbuf : buf = pre ++ ([b] ++ t)) (hofs : ofs = pre.length) :
    dec_bool buf ofs = .ok (b == 1, ofs + 1) := by
  subst hbuf; subst hofs; exact dec_bool_at pre t b

theorem dec_int_at2 (buf pre t : List Nat) (n : ℤ) (ofs : Nat)
    (h1 : -(2 ^ 31) ≤ n) (h2 : n < 2 ^ 31)
    (hbuf : buf = pre ++ (be_u32 (n % (2 ^ 32)).toNat ++ t)) (hofs : ofs = pre.length) :
    dec_int buf ofs = .ok (n, ofs + 4) := by
  subst hbuf; subst hofs; exact dec_int_at pre t n h1 h2

/-! Length bookkeeping for the encoders. -/

theorem length_enc_list_cons (v : Value) (vs : List Value) :
    (enc_list (v :: vs)).length = (enc_data v).length + (enc_list vs).length := by
  simp [enc_list]

theorem length_enc_entries_cons (k : List Nat) (v : Value) (d : List (List Nat × Value)) :
    (enc_entries ((k, v) :: d)).length =
      4 + k.length + (enc_data v).length + (enc_entries d).length := by
  simp [enc_entries, be_u32]
  omega

/-- Keys cannot collide with a fresh key, so Python's dict assignment
appends. -/
theorem dict_insert_fresh (acc : List (List Nat × Value)) (k : List Nat) (v : Value)
    (h : k ∉ acc.map Prod.fst) : dict_insert acc k v = acc ++ [(k, v)] := by
  unfold dict_insert
  rw [if_neg]
  intro hany
  rw [List.any_eq_true] at hany
  obtain ⟨p, hp, he⟩ := hany
  rw [beq_iff_eq] at he
  exact h (he ▸ List.mem_map_of_mem Prod.fst hp)

/-- Decoding the encoded elements of an array: the element loop of
`dec_data` consumes `enc_list a` and appends the elements, in order, to the
accumulator. -/
theorem decElems_enc (fuel : Nat)
    (IH : ∀ (v : Value) (buf pre post : List Nat) (ofs : Nat),
      buf = pre ++ (enc_data v ++ post) → ofs = pre.length →
      (enc_data v).length < fuel → wfValue v = true →
      decData fuel buf ofs = .ok (v, ofs + (enc_data v).length)) :
    ∀ (a : List Value) (buf pre post : List Nat) (acc : List Value) (ofs : Nat),
    buf = pre ++ (enc_list a ++ post) → ofs = pre.length →
    (enc_list a).length < fuel → wfList a = true →
    decElems (fun b o => decData fuel b o) a.length buf ofs acc =
      .ok (acc ++ a, ofs + (enc_list a).length) := by
  intro a
  induction a with
  | nil =>
    intro buf pre post acc ofs hbuf hofs hlen hwf
    simp [decElems, enc_list]
  | cons v vs ihl =>
    intro buf pre post acc ofs hbuf hofs hlen hwf
    rw [show (v :: vs).length = vs.length + 1 from rfl]
    rw [wfList, Bool.and_eq_true] at hwf
    rw [length_enc_list_cons] at hlen
    simp only [decElems]
    rw [IH v buf pre (enc_list vs ++ post) ofs
      (by rw [hbuf]; simp [enc_list, List.append_assoc]) hofs (by omega) hwf.1]
    dsimp only
    rw [ihl buf (pre ++ enc_data v) post (acc ++ [v]) (ofs + (enc_data v).length)
      (by rw [hbuf]; simp [enc_list, List.append_assoc]) (by simp [hofs]) (by omega) hwf.2]
    simp [length_enc_list_cons]
    omega

/-- Decoding the encoded pairs of a struct: the pair loop of `dec_data`
consumes `enc_entries d`; as long as every key is new (the keys of an
encoded Python dict are distinct), each dict assignment appends, so the
pairs arrive in order. -/
theorem decEntries_enc (fuel : Nat)
    (IH : ∀ (v : Value) (buf pre post : List Nat) (ofs : Nat),
      buf = pre ++ (enc_data v ++ post) → ofs = pre.length →
      (enc_data v).length < fuel → wfValue v = true →
      decData fuel buf ofs = .ok (v, ofs + (enc_data v).length)) :
    ∀ (d : List (List Nat × Value)) (buf pre post : List Nat)
      (acc : List (List Nat × Value)) (ofs : Nat),
    buf = pre ++ (enc_entries d ++ post) → ofs = pre.length →
    (enc_entries d).length < fuel → wfEntries d = true →
    (∀ k ∈ d.map Prod.fst, k ∉ acc.map Prod.fst) → (d.map Prod.fst).Nodup →
    decEntries (fun b o => decData fuel b o) d.length buf ofs acc =
      .ok (acc ++ d, ofs + (enc_entries d).length) := by
  intro d
  induction d with
  | nil =>
    intro buf pre post acc ofs hbuf hofs hlen hwf hfresh hnd
    simp [decEntries, enc_entries]
  | cons kv rest ihd =>
    obtain ⟨k, v⟩ := kv
    intro buf pre post acc ofs hbuf hofs hlen hwf hfresh hnd
    rw [show ((k, v) :: rest).length = rest.length + 1 from rfl]
    rw [wfEntries, Bool.and_eq_true, Bool.and_eq_true] at hwf
    obtain ⟨⟨hk, hv⟩, hrest⟩ := hwf
    rw [wfBytes, Bool.and_eq_true, decide_eq_true_eq] at hk
    rw [length_enc_entries_cons] at hlen
    simp only [decEntries]
    rw [dec_string_at2 buf pre (enc_data v ++ (enc_entries rest ++ post)) k ofs hk.2
      (by rw [hbuf]; simp [enc_entries, be_u32, List.append_assoc]) hofs]
    dsimp only
    rw [IH v buf (pre ++ be_u32 k.length ++ k) (enc_entries rest ++ post)
      (ofs + 4 + k.length)
      (by rw [hbuf]; simp [enc_entries, List.append_assoc])
      (by simp [hofs, be_u32]; omega) (by omega) hv]
    dsimp only
    rw [dict_insert_fresh acc k v (hfresh k (by simp))]
    rw [ihd buf (pre ++ be_u32 k.length ++ k ++ enc_data v) post (acc ++ [(k, v)])
      (ofs + 4 + k.length + (enc_data v).length)
      (by rw [hbuf]; simp [enc_entries, List.append_assoc])
      (by simp [hofs, be_u32]; omega) (by omega) hrest
      ?fresh (by simpa using hnd.of_cons)]
    case fresh =>
      intro k2 hk2 hk2acc
      rw [List.map_append] at hk2acc
      rcases List.mem_append.1 hk2acc with h | h
      · exact hfresh k2 (by simp [hk2]) h
      · simp at h
        rw [List.map_cons, List.nodup_cons] at hnd
        exact hnd.1 (h ▸ hk2)
    rw [length_enc_entries_cons]
    simp
    omega

/-- Central round-trip lemma: running the fuelled decoder at the start of
`enc_data v` inside any larger buffer returns exactly `v` and stops right
after the encoding. -/
theorem decData_enc :
    ∀ (fuel : Nat) (v : Value) (buf pre post : List Nat) (ofs : Nat),
    buf = pre ++ (enc_data v ++ post) → ofs = pre.length →
    (enc_data v).length < fuel → wfValue v = true →
    decData fuel buf ofs = .ok (v, ofs + (enc_data v).length) := by
  intro fuel
  induction fuel with
  | zero =>
    intro v buf pre post ofs hbuf hofs hlen hwf
    omega
  | succ fuel IH =>
    intro v buf pre post ofs hbuf hofs hlen hwf
    cases v with
    | bool b =>
      simp only [enc_data] at hbuf hlen ⊢
      simp only [decData]
      rw [rd_u32_at2 buf pre ([if b then 1 else 0] ++ post) T_BOOL ofs (by decide)
        (by rw [hbuf]; simp [enc_bool, List.append_assoc]) hofs]
      dsimp only
      rw [if_neg (by decide), if_pos rfl]
      rw [dec_bool_at2 buf (pre ++ be_u32 T_BOOL) post (if b then 1 else 0) (ofs + 4)
        (by rw [hbuf]; simp [enc_bool, List.append_assoc]) (by simp [hofs, be_u32])]
      dsimp only
      cases b <;> simp [enc_bool, be_u32]
    | int n =>
      simp only [enc_data] at hbuf hlen ⊢
      simp only [wfValue, Bool.and_eq_true, decide_eq_true_eq] at hwf
      simp only [decData]
      rw [rd_u32_at2 buf pre (be_u32 ((n % (2 ^ 32)).toNat) ++ post) T_INTEGER ofs (by decide)
        (by rw [hbuf]; simp [enc_integer, List.append_assoc]) hofs]
      dsimp only
      rw [if_neg (by decide), if_neg (by decide), if_pos rfl]
      rw [dec_int_at2 buf (pre ++ be_u32 T_INTEGER) post n (ofs + 4) hwf.1 hwf.2
        (by rw [hbuf]; simp [enc_integer, List.append_assoc]) (by simp [hofs, be_u32])]
      dsimp only
      simp [enc_integer, be_u32]
    | str s =>
      simp only [enc_data] at hbuf hlen ⊢
      simp only [wfBytes, wfValue, Bool.and_eq_true, decide_eq_true_eq] at hwf
      simp only [decData]
      rw [rd_u32_at2 buf pre (be_u32 s.length ++ (s ++ post)) T_STRING ofs (by decide)
        (by rw [hbuf]; simp [enc_string, List.append_assoc]) hofs]
      dsimp only
      rw [if_pos rfl]
      rw [dec_string_at2 buf (pre ++ be_u32 T_STRING) post s (ofs + 4) hwf.2
        (by rw [hbuf]; simp [enc_string, List.append_assoc]) (by simp [hofs, be_u32])]
      dsimp only
      simp [enc_string, be_u32]
      omega
    | double q =>
      simp [wfValue] at hwf
    | arr a =>
      simp only [enc_data] at hbuf hlen ⊢
      simp only [wfValue, Bool.and_eq_true, decide_eq_true_eq] at hwf
      simp only [decData]
      rw [rd_u32_at2 buf pre (be_u32 a.length ++ (enc_list a ++ post)) T_ARRAY ofs (by decide)
        (by rw [hbuf]; simp [List.append_assoc]) hofs]
      dsimp only
      rw [if_neg (by decide), if_neg (by decide), if_neg (by decide), if_neg (by decide),
        if_pos rfl]
      rw [rd_u32_at2 buf (pre ++ be_u32 T_ARRAY) (enc_list a ++ post) a.length (ofs + 4)
        hwf.1 (by rw [hbuf]; simp [List.append_assoc]) (by simp [hofs, be_u32])]
      dsimp only
      have hlist : (enc_list a).length < fuel := by
        simp [be_u32] at hlen
        omega
      rw [decElems_enc fuel IH a buf (pre ++ be_u32 T_ARRAY ++ be_u32 a.length) post []
        (ofs + 4 + 4) (by rw [hbuf]; simp [List.append_assoc])
        (by simp [hofs, be_u32]) hlist hwf.2]
      dsimp only
      simp [be_u32]
      omega
    | strct d =>
      simp only [enc_data] at hbuf hlen ⊢
      simp only [wfValue, Bool.and_eq_true, decide_eq_true_eq] at hwf
      obtain ⟨⟨hd32, hnd⟩, hent⟩ := hwf
      simp only [decData]
      rw [rd_u32_at2 buf pre (be_u32 d.length ++ (enc_entries d ++ post)) T_STRUCT ofs
        (by decide) (by rw [hbuf]; simp [List.append_assoc]) hofs]
      dsimp only
      rw [if_neg (by decide), if_neg (by decide), if_neg (by decide), if_neg (by decide),
        if_neg (by decide), if_pos rfl]
      rw [rd_u32_at2 buf (pre ++ be_u32 T_STRUCT) (enc_entries d ++ post) d.length (ofs + 4)
        hd32 (by rw [hbuf]; simp [List.append_assoc]) (by simp [hofs, be_u32])]
      dsimp only
      have hentlen : (enc_entries d).length < fuel := by
        simp [be_u32] at hlen
        omega
      rw [decEntries_enc fuel IH d buf (pre ++ be_u32 T_STRUCT ++ be_u32 d.length) post []
        (ofs + 4 + 4) (by rw [hbuf]; simp [List.append_assoc])
        (by simp [hofs, be_u32]) hentlen hent (by simp) hnd]
      dsimp only
      simp [be_u32]
      omega

/-- C1: for every value built from 32-bit signed integers, booleans,
representable strings, and finite arrays and structs of these, decoding the
encoding with `dec_data` recovers exactly the value — struct keys and array
elements in their original order — and the returned next-offset equals the
length of the encoded bytes. -/
theorem c1_data_roundtrip (v : Value) (h : wfValue v = true) :
    dec_data (enc_data v) 0 = .ok (v, (enc_data v).length) := by
  unfold dec_data
  have h2 := decData_enc ((enc_data v).length + 1) v (enc_data v) [] [] 0 (by simp)
    (by simp) (by omega) h
  simpa using h2

/-- Witness for C1 at a struct containing an array containing a struct. -/
theorem c1_data_roundtrip_witness :
    wfValue (.strct [([97], .arr [.strct [([98], .int 5)], .bool true]),
      ([99], .str [100])]) = true ∧
    dec_data (enc_data (.strct [([97], .arr [.strct [([98], .int 5)], .bool true]),
      ([99], .str [100])])) 0 =
      .ok (.strct [([97], .arr [.strct [([98], .int 5)], .bool true]),
        ([99], .str [100])],
        (enc_data (.strct [([97], .arr [.strct [([98], .int 5)], .bool true]),
          ([99], .str [100])])).length) :=
  ⟨by decide, c1_data_roundtrip _ (by decide)⟩

/-- C4 counterexample: the stored boolean byte 2 is nonzero, yet `dec_data`
decodes it to `false` — the decoder compares the byte with 1 instead of
normalising any nonzero byte to `true`. -/
theorem c4_bool_nonzero_counterexample :
    dec_data (be_u32 T_BOOL ++ [2]) 0 = .ok (.bool false, 5) ∧ (2 : Nat) ≠ 0 :=
  ⟨rfl, by decide⟩

/-- C4 amended: decoding a Bool value yields `true` if and only if the
stored byte equals 1; every other byte, including nonzero ones, decodes to
`false`. -/
theorem c4_bool_decode_eq_one (b : Nat) (_hb : b < 256) :
    dec_data (be_u32 T_BOOL ++ [b]) 0 = .ok (.bool (b == 1), 5) := by
  unfold dec_data
  simp only [decData]
  rw [rd_u32_at2 _ [] [b] T_BOOL 0 (by decide) (by simp) rfl]
  dsimp only
  rw [if_neg (by decide), if_pos rfl]
  rw [dec_bool_at2 _ (be_u32 T_BOOL) [] b (0 + 4) (by simp) (by simp [be_u32])]

/-- Witness for the amended C4 at the nonzero byte 2. -/
theorem c4_bool_decode_eq_one_witness :
    (2 : Nat) < 256 ∧ dec_data (be_u32 T_BOOL ++ [2]) 0 = .ok (.bool (2 == 1), 5) :=
  ⟨by decide, c4_bool_decode_eq_one 2 (by decide)⟩

/-- C5: the 4-byte total-length field written by `enc_request` and
`enc_response` equals the actual byte length of the produced frame (8
header bytes plus the true body size); the sender never under-reports.  The
bound `< 2 ^ 32` is the range within which Python's `struct.pack(">I", n)`
does not raise. -/
theorem c5_sender_writes_true_length :
    (∀ (method : List Nat) (params : List Value),
      (enc_request method params).length < 2 ^ 32 →
      rd_u32 (enc_request method params) 4 =
        .ok ((enc_request method params).length, 8)) ∧
    (∀ ret : Option Value,
      (enc_response ret).length < 2 ^ 32 →
      rd_u32 (enc_response ret) 4 = .ok ((enc_response ret).length, 8)) := by
  constructor
  · intro method params hlt
    have hlen : (enc_request method params).length =
        8 + (be_u32 method.length ++ method ++ be_u32 params.length ++
          enc_list params).length := by
      simp [enc_request, be_u32, HDR_REQ]
      omega
    rw [hlen] at hlt ⊢
    exact rd_u32_at2 _ HDR_REQ
      (be_u32 method.length ++ method ++ be_u32 params.length ++ enc_list params) _ 4 hlt
      (by simp [enc_request, List.append_assoc]) rfl
  · intro ret hlt
    cases ret with
    | none => rfl
    | some v =>
      have hlen : (enc_response (some v)).length = 8 + (be_u32 0 ++ enc_data v).length := by
        simp [enc_response, be_u32, HDR_RES]
        omega
      rw [hlen] at hlt ⊢
      exact rd_u32_at2 _ HDR_RES (be_u32 0 ++ enc_data v) _ 4 hlt
        (by simp [enc_response, List.append_assoc]) rfl

/-- Witness for C5 at a one-byte method with no parameters and at the
`None` response. -/
theorem c5_sender_writes_true_length_witness :
    (enc_request [109] []).length < 2 ^ 32 ∧
    rd_u32 (enc_request [109] []) 4 = .ok ((enc_request [109] []).length, 8) ∧
    (enc_response none).length < 2 ^ 32 ∧
    rd_u32 (enc_response none) 4 = .ok ((enc_response none).length, 8) :=
  ⟨by decide, c5_sender_writes_true_length.1 [109] [] (by decide), by decide,
    c5_sender_writes_true_length.2 none (by decide)⟩

/-- C7: on any buffer whose next 4-byte big-endian type tag is outside the
six recognised tags, `dec_data` fails with the unsupported-type error
rather than returning a value. -/
theorem c7_unsupported_tag_error (buf : List Nat) (ofs t o : Nat)
    (hread : rd_u32 buf ofs = .ok (t, o))
    (h1 : t ≠ T_STRING) (h2 : t ≠ T_BOOL) (h3 : t ≠ T_INTEGER) (h4 : t ≠ T_DOUBLE)
    (h5 : t ≠ T_ARRAY) (h6 : t ≠ T_STRUCT) :
    dec_data buf ofs = .error (.unsupportedType t) := by
  unfold dec_data
  simp only [decData]
  rw [hread]
  dsimp only
  rw [if_neg h1, if_neg h2, if_neg h3, if_neg h4, if_neg h5, if_neg h6]

/-- Witness for C7 at tag `T_BINARY = 0x0E`, which `const.py` declares but
no decoder branch recognises. -/
theorem c7_unsupported_tag_error_witness :
    rd_u32 (be_u32 T_BINARY) 0 = .ok (T_BINARY, 4) ∧
    dec_data (be_u32 T_BINARY) 0 = .error (.unsupportedType T_BINARY) :=
  ⟨rfl, c7_unsupported_tag_error _ 0 T_BINARY 4 rfl (by decide) (by decide) (by decide)
    (by decide) (by decide) (by decide)⟩

/-- C8: encoding the double value 0.0 yields mantissa 0 and exponent 0 (the
source returns the pair in the order mantissa, exponent). -/
theorem c8_enc_double_parts_zero : enc_double_parts 0 = (0, 0) := by
  simp [enc_double_parts]

/-- C9: encoding a `None` return produces a frame with an empty-string
payload, so `dec_response` of it returns the empty string, not `None`; and
`dec_response` returns `None` only when the frame's body truly ends right
after the 4-byte status field (a 12-byte frame). -/
theorem c9_none_response_empty_string :
    dec_response (enc_response none) = .ok (some (.str [])) ∧
    (∀ frame : List Nat, dec_response frame = .ok none → frame.length = 12) := by
  constructor
  · rfl
  · intro frame h
    unfold dec_response at h
    by_cases h8 : frame.length < 8
    · rw [if_pos h8] at h
      simp at h
    rw [if_neg h8] at h
    split at h
    · simp at h
    split at h
    · simp at h
    rcases hrd : rd_u32 (frame.drop 8) 0 with er | so
    · rw [hrd] at h
      simp at h
    obtain ⟨status, o⟩ := so
    rw [hrd] at h
    dsimp only at h
    have ho : o = 4 ∧ 4 ≤ (frame.drop 8).length := by
      unfold rd_u32 at hrd
      split at hrd
      · rw [Except.ok.injEq, Prod.mk.injEq] at hrd
        obtain ⟨hrd1, hrd2⟩ := hrd
        omega
      · cases hrd
    by_cases hend : o ≥ (frame.drop 8).length
    · have hdl : (frame.drop 8).length = frame.length - 8 := by simp
      omega
    rw [if_neg hend] at h
    rcases hdd : dec_data (frame.drop 8) o with er | vo
    · rw [hdd] at h
      simp at h
    obtain ⟨v, o2⟩ := vo
    rw [hdd] at h
    simp at h

/-- Witness for C9's second conjunct at a 12-byte frame whose body is just
a (nonzero) status word. -/
theorem c9_none_response_empty_string_witness :
    dec_response (HDR_RES ++ (be_u32 12 ++ [0, 0, 0, 7])) = .ok none ∧
    (HDR_RES ++ (be_u32 12 ++ [0, 0, 0, 7])).length = 12 :=
  ⟨rfl, c9_none_response_empty_string.2 _ rfl⟩

/-- Termination of the Frame Layer's grow loop: starting from `k` body
bytes, if every strictly shorter candidate body fails to decode and the
full body decodes, the loop ends at the full body's decode, provided the
budget covers the missing bytes. -/
theorem frameGrow_reaches (stream body : List Nat)
    (hdrop : stream.drop 8 = body) (hslen : stream.length = 8 + body.length) :
    ∀ (budget k : Nat), k ≤ body.length → body.length - k ≤ budget →
    (∀ j ∈ List.range body.length, k ≤ j →
      isOkResult (tryDecode (body.take j)) = false) →
    frameGrow stream k budget = tryDecode body := by
  intro budget
  induction budget with
  | zero =>
    intro k hk hbud _hfail
    have hkeq : k = body.length := by omega
    subst hkeq
    unfold frameGrow
    rw [hdrop, List.take_length]
  | succ budget ihb =>
    intro k hk hbud hfail
    unfold frameGrow
    rw [hdrop]
    by_cases hkeq : k = body.length
    · subst hkeq
      rw [List.take_length]
      rcases htd : tryDecode body with er | r
      · dsimp only
        rw [if_neg (by omega)]
      · dsimp only
    · have hklt : k < body.length := by omega
      have hko := hfail k (List.mem_range.2 hklt) le_rfl
      rcases htd : tryDecode (body.take k) with er | r
      · dsimp only
        rw [if_pos (by omega)]
        exact ihb (k + 1) (by omega) (by omega)
          (fun j hj hj2 => hfail j hj (by omega))
      · rw [htd] at hko
        simp [isOkResult] at hko

/-- C2 counterexample: a well-formed request frame (method `"m"`, single
string parameter `"ab"`, true total length 27) whose header claims total
length 26.  The Frame Layer decodes the truncated candidate body without
error — `dec_string` silently truncates the final string parameter — so the
retry loop never grows the buffer and the result differs from decoding the
correctly-framed original: the parameter comes back as `"a"`. -/
theorem c2_frame_tolerance_counterexample :
    frameReadRequest (HDR_REQ ++ (be_u32 26 ++
      [0, 0, 0, 1, 109, 0, 0, 0, 1, 0, 0, 0, 3, 0, 0, 0, 2, 97, 98])) 100 =
      .ok ([109], [.str [97]]) ∧
    dec_request (HDR_REQ ++ be_u32 27 ++
      [0, 0, 0, 1, 109, 0, 0, 0, 1, 0, 0, 0, 3, 0, 0, 0, 2, 97, 98]) =
      .ok ([109], [.str [97, 98]]) ∧
    ([97] : List Nat) ≠ [97, 98] :=
  ⟨rfl, rfl, by decide⟩

/-- C2 amended: for a well-formed request frame whose total-length header
under-reports the true size, the Frame Layer still decodes the complete
request — same method name and parameter list as the correctly-framed
original — provided every shorter candidate body fails to decode (which
bounds the retry loop from below) and the retry budget covers the missing
bytes.  When an under-reported candidate body decodes without error (the
truncation point falls inside the byte payload of a final string
parameter, which `dec_data` silently truncates), the Frame Layer instead
returns that truncated result, as the counterexample shows. -/
theorem c2_frame_tolerance_amended (body : List Nat) (declared budget : Nat)
    (m : List Nat) (ps : List Value)
    (h32 : declared < 2 ^ 32)
    (hbudget : body.length - (declared - 8) ≤ budget)
    (hfull : tryDecode body = .ok (m, ps))
    (hfail : ∀ j ∈ List.range body.length, declared - 8 ≤ j →
      isOkResult (tryDecode (body.take j)) = false) :
    frameReadRequest (HDR_REQ ++ (be_u32 declared ++ body)) budget = .ok (m, ps) ∧
    dec_request (HDR_REQ ++ be_u32 (8 + body.length) ++ body) = .ok (m, ps) := by
  constructor
  · unfold frameReadRequest
    rw [if_neg (by simp [HDR_REQ, be_u32])]
    rw [if_neg (by simp [HDR_REQ])]
    rw [rd_u32_at2 _ HDR_REQ body declared 4 h32 rfl rfl]
    dsimp only
    have hdrop : (HDR_REQ ++ (be_u32 declared ++ body)).drop 8 = body := by
      rw [show HDR_REQ ++ (be_u32 declared ++ body) =
        (HDR_REQ ++ be_u32 declared) ++ body from by simp]
      rw [show (8 : Nat) = (HDR_REQ ++ be_u32 declared).length from by
        simp [HDR_REQ, be_u32]]
      exact List.drop_left _ _
    have hslen : (HDR_REQ ++ (be_u32 declared ++ body)).length = 8 + body.length := by
      simp [HDR_REQ, be_u32]
      omega
    by_cases hk : declared - 8 ≤ body.length
    · rw [frameGrow_reaches _ body hdrop hslen budget (declared - 8) hk
        (by omega) hfail, hfull]
    · have hk2 : body.length ≤ declared - 8 := by omega
      cases budget with
      | zero =>
        unfold frameGrow
        rw [hdrop, List.take_of_length_le hk2, hfull]
      | succ b =>
        unfold frameGrow
        rw [hdrop, List.take_of_length_le hk2, hfull]
  · exact hfull

/-- Witness for the amended C2 at the repository test's shape: method
`"m"`, one Bool parameter, true total length 22, header claiming 21; the
cut severs the Bool's payload byte, the truncated decode raises, and one
extra byte of budget recovers the full request. -/
theorem c2_frame_tolerance_amended_witness :
    (21 : Nat) < 2 ^ 32 ∧
    ([0, 0, 0, 1, 109, 0, 0, 0, 1, 0, 0, 0, 2, 1] : List Nat).length - (21 - 8) ≤ 5 ∧
    tryDecode [0, 0, 0, 1, 109, 0, 0, 0, 1, 0, 0, 0, 2, 1] = .ok ([109], [.bool true]) ∧
    (∀ j ∈ List.range ([0, 0, 0, 1, 109, 0, 0, 0, 1, 0, 0, 0, 2, 1] : List Nat).length,
      21 - 8 ≤ j →
      isOkResult (tryDecode (([0, 0, 0, 1, 109, 0, 0, 0, 1, 0, 0, 0, 2, 1] :
        List Nat).take j)) = false) ∧
    frameReadRequest (HDR_REQ ++ (be_u32 21 ++
      [0, 0, 0, 1, 109, 0, 0, 0, 1, 0, 0, 0, 2, 1])) 5 = .ok ([109], [.bool true]) ∧
    dec_request (HDR_REQ ++ be_u32 (8 +
      ([0, 0, 0, 1, 109, 0, 0, 0, 1, 0, 0, 0, 2, 1] : List Nat).length) ++
      [0, 0, 0, 1, 109, 0, 0, 0, 1, 0, 0, 0, 2, 1]) = .ok ([109], [.bool true]) :=
  ⟨by decide, by decide, rfl, by decide,
    (c2_frame_tolerance_amended [0, 0, 0, 1, 109, 0, 0, 0, 1, 0, 0, 0, 2, 1] 21 5
      [109] [.bool true] (by decide) (by decide) rfl (by decide)).1,
    (c2_frame_tolerance_amended [0, 0, 0, 1, 109, 0, 0, 0, 1, 0, 0, 0, 2, 1] 21 5
      [109] [.bool true] (by decide) (by decide) rfl (by decide)).2⟩

/-- C10: `enc_integer` accepts any integer, of any magnitude, and encodes
its low 32 bits; decoding the encoding returns the unique value of
`[-2^31, 2^31)` congruent to the original modulo `2^32`, so out-of-range
integers silently wrap rather than raise. -/
theorem c10_integer_wraps (n : ℤ) :
    dec_data (enc_integer n) 0 = .ok (.int ((n + 2 ^ 31) % 2 ^ 32 - 2 ^ 31), 8) ∧
    -(2 ^ 31) ≤ (n + 2 ^ 31) % 2 ^ 32 - 2 ^ 31 ∧
    (n + 2 ^ 31) % 2 ^ 32 - 2 ^ 31 < 2 ^ 31 ∧
    (2 ^ 32 : ℤ) ∣ n - ((n + 2 ^ 31) % 2 ^ 32 - 2 ^ 31) := by
  refine ⟨?_, by omega, by omega, by omega⟩
  have hbuf : enc_integer n = be_u32 T_INTEGER ++
      (be_u32 (((((n + 2 ^ 31) % 2 ^ 32 - 2 ^ 31)) % (2 ^ 32)).toNat) ++ []) := by
    unfold enc_integer
    rw [show n % (2 ^ 32) = ((n + 2 ^ 31) % 2 ^ 32 - 2 ^ 31) % (2 ^ 32) from by omega]
    simp
  unfold dec_data
  simp only [decData]
  rw [rd_u32_at2 _ [] (be_u32 ((n % (2 ^ 32)).toNat)) T_INTEGER 0 (by decide)
    (by simp [enc_integer]) rfl]
  dsimp only
  rw [if_neg (by decide), if_neg (by decide), if_pos rfl]
  rw [dec_int_at2 _ (be_u32 T_INTEGER) [] ((n + 2 ^ 31) % 2 ^ 32 - 2 ^ 31) (0 + 4)
    (by omega) (by omega) hbuf (by simp [be_u32])]

/-! Machinery for C6: decoding never looks at buffer content before its
starting offset, so two response bodies that differ only in the 4-byte
status word decode identically.  First, decoders only move forward. -/

theorem rd_u32_mono {buf : List Nat} {ofs n o : Nat}
    (h : rd_u32 buf ofs = .ok (n, o)) : ofs ≤ o := by
  unfold rd_u32 at h
  split at h
  · rw [Except.ok.injEq, Prod.mk.injEq] at h
    omega
  · cases h

theorem dec_string_mono {buf : List Nat} {ofs : Nat} {s : List Nat} {o : Nat}
    (h : dec_string buf ofs = .ok (s, o)) : ofs ≤ o := by
  unfold dec_string at h
  rcases hr : rd_u32 buf ofs with er | p
  · rw [hr] at h
    cases h
  · obtain ⟨len, o1⟩ := p
    rw [hr] at h
    dsimp only at h
    rw [Except.ok.injEq, Prod.mk.injEq] at h
    have := rd_u32_mono hr
    omega

theorem dec_bool_mono {buf : List Nat} {ofs : Nat} {b : Bool} {o : Nat}
    (h : dec_bool buf ofs = .ok (b, o)) : ofs ≤ o := by
  unfold dec_bool at h
  split at h
  · rw [Except.ok.injEq, Prod.mk.injEq] at h
    omega
  · cases h

theorem dec_int_mono {buf : List Nat} {ofs : Nat} {n : ℤ} {o : Nat}
    (h : dec_int buf ofs = .ok (n, o)) : ofs ≤ o := by
  unfold dec_int at h
  rcases hr : rd_u32 buf ofs with er | p
  · rw [hr] at h
    cases h
  · obtain ⟨v, o1⟩ := p
    rw [hr] at h
    dsimp only at h
    have := rd_u32_mono hr
    split at h <;> rw [Except.ok.injEq, Prod.mk.injEq] at h <;> omega

theorem dec_double_mono {buf : List Nat} {ofs : Nat} {q : ℚ} {o : Nat}
    (h : dec_double buf ofs = .ok (q, o)) : ofs ≤ o := by
  unfold dec_double at h
  rcases hr : rd_u32 buf ofs with er | p
  · rw [hr] at h
    cases h
  · obtain ⟨eu, o1⟩ := p
    rw [hr] at h
    dsimp only at h
    rcases hr2 : rd_u32 buf o1 with er | p2
    · rw [hr2] at h
      cases h
    · obtain ⟨mu, o2⟩ := p2
      rw [hr2] at h
      dsimp only at h
      rw [Except.ok.injEq, Prod.mk.injEq] at h
      have := rd_u32_mono hr
      have := rd_u32_mono hr2
      omega

theorem decElems_mono (dec : List Nat → Nat → Except DecErr (Value × Nat))
    (hdec : ∀ buf ofs v o, dec buf ofs = .ok (v, o) → ofs ≤ o) :
    ∀ (n : Nat) (buf : List Nat) (ofs : Nat) (acc r : List Value) (o : Nat),
    decElems dec n buf ofs acc = .ok (r, o) → ofs ≤ o := by
  intro n
  induction n with
  | zero =>
    intro buf ofs acc r o h
    unfold decElems at h
    rw [Except.ok.injEq, Prod.mk.injEq] at h
    omega
  | succ n ihn =>
    intro buf ofs acc r o h
    unfold decElems at h
    rcases hd : dec buf ofs with er | p
    · rw [hd] at h
      cases h
    · obtain ⟨v, o1⟩ := p
      rw [hd] at h
      dsimp only at h
      have h1 := hdec buf ofs v o1 hd
      have h2 := ihn buf o1 (acc ++ [v]) r o h
      omega

theorem decEntries_mono (dec : List Nat → Nat → Except DecErr (Value × Nat))
    (hdec : ∀ buf ofs v o, dec buf ofs = .ok (v, o) → ofs ≤ o) :
    ∀ (n : Nat) (buf : List Nat) (ofs : Nat) (acc r : List (List Nat × Value)) (o : Nat),
    decEntries dec n buf ofs acc = .ok (r, o) → ofs ≤ o := by
  intro n
  induction n with
  | zero =>
    intro buf ofs acc r o h
    unfold decEntries at h
    rw [Except.ok.injEq, Prod.mk.injEq] at h
    omega
  | succ n ihn =>
    intro buf ofs acc r o h
    unfold decEntries at h
    rcases hs : dec_string buf ofs with er | p
    · rw [hs] at h
      cases h
    · obtain ⟨k, o1⟩ := p
      rw [hs] at h
      dsimp only at h
      rcases hd : dec buf o1 with er | p2
      · rw [hd] at h
        cases h
      · obtain ⟨v, o2⟩ := p2
        rw [hd] at h
        dsimp only at h
        have h1 := dec_string_mono hs
        have h2 := hdec buf o1 v o2 hd
        have h3 := ihn buf o2 (dict_insert acc k v) r o h
        omega

theorem decData_mono :
    ∀ (fuel : Nat) (buf : List Nat) (ofs : Nat) (v : Value) (o : Nat),
    decData fuel buf ofs = .ok (v, o) → ofs ≤ o := by
  intro fuel
  induction fuel with
  | zero =>
    intro buf ofs v o h
    unfold decData at h
    cases h
  | succ fuel ih =>
    intro buf ofs v o h
    simp only [decData] at h
    rcases hr : rd_u32 buf ofs with er | p
    · rw [hr] at h
      cases h
    · obtain ⟨t, o1⟩ := p
      rw [hr] at h
      dsimp only at h
      have h0 := rd_u32_mono hr
      split at h
      · rcases hs : dec_string buf o1 with er | q
        · rw [hs] at h
          cases h
        · obtain ⟨s, o2⟩ := q
          rw [hs] at h
          dsimp only at h
          rw [Except.ok.injEq, Prod.mk.injEq] at h
          have := dec_string_mono hs
          omega
      split at h
      · rcases hs : dec_bool buf o1 with er | q
        · rw [hs] at h
          cases h
        · obtain ⟨b2, o2⟩ := q
          rw [hs] at h
          dsimp only at h
          rw [Except.ok.injEq, Prod.mk.injEq] at h
          have := dec_bool_mono hs
          omega
      split at h
      · rcases hs : dec_int buf o1 with er | q
        · rw [hs] at h
          cases h
        · obtain ⟨n2, o2⟩ := q
          rw [hs] at h
          dsimp only at h
          rw [Except.ok.injEq, Prod.mk.injEq] at h
          have := dec_int_mono hs
          omega
      split at h
      · rcases hs : dec_double buf o1 with er | q
        · rw [hs] at h
          cases h
        · obtain ⟨q2, o2⟩ := q
          rw [hs] at h
          dsimp only at h
          rw [Except.ok.injEq, Prod.mk.injEq] at h
          have := dec_double_mono hs
          omega
      split at h
      · rcases hn : rd_u32 buf o1 with er | q
        · rw [hn] at h
          cases h
        · obtain ⟨n2, o2⟩ := q
          rw [hn] at h
          dsimp only at h
          rcases he : decElems (fun b o3 => decData fuel b o3) n2 buf o2 [] with er | q2
          · rw [he] at h
            cases h
          · obtain ⟨vs, o3⟩ := q2
            rw [he] at h
            dsimp only at h
            rw [Except.ok.injEq, Prod.mk.injEq] at h
            have hm1 := rd_u32_mono hn
            have hm2 := decElems_mono (fun b o3 => decData fuel b o3)
              (fun b4 o4 v4 o5 h4 => ih b4 o4 v4 o5 h4) n2 buf o2 [] vs o3 he
            omega
      split at h
      · rcases hn : rd_u32 buf o1 with er | q
        · rw [hn] at h
          cases h
        · obtain ⟨n2, o2⟩ := q
          rw [hn] at h
          dsimp only at h
          rcases he : decEntries (fun b o3 => decData fuel b o3) n2 buf o2 [] with er | q2
          · rw [he] at h
            cases h
          · obtain ⟨d2, o3⟩ := q2
            rw [he] at h
            dsimp only at h
            rw [Except.ok.injEq, Prod.mk.injEq] at h
            have hm1 := rd_u32_mono hn
            have hm2 := decEntries_mono (fun b o3 => decData fuel b o3)
              (fun b4 o4 v4 o5 h4 => ih b4 o4 v4 o5 h4) n2 buf o2 [] d2 o3 he
            omega
      cases h

/-! Second, decoding at an offset past a prefix depends only on the
prefix's length and the suffix's content. -/

theorem getD_suffix (a t : List Nat) (i : Nat) (hi : a.length ≤ i) :
    (a ++ t).getD i 0 = t.getD (i - a.length) 0 := by
  rw [show i = a.length + (i - a.length) from by omega, getD_pre]
  congr 1
  omega

theorem getD_congr_suffix (a b t : List Nat) (hab : a.length = b.length) (i : Nat)
    (hi : a.length ≤ i) : (a ++ t).getD i 0 = (b ++ t).getD i 0 := by
  rw [getD_suffix a t i hi, getD_suffix b t i (hab ▸ hi), hab]

theorem rd_u32_congr (a b t : List Nat) (hab : a.length = b.length) (ofs : Nat)
    (hofs : a.length ≤ ofs) : rd_u32 (a ++ t) ofs = rd_u32 (b ++ t) ofs := by
  unfold rd_u32
  have hl : (a ++ t).length = (b ++ t).length := by simp [hab]
  rw [hl]
  split
  · rw [getD_congr_suffix a b t hab ofs hofs,
      getD_congr_suffix a b t hab (ofs + 1) (by omega),
      getD_congr_suffix a b t hab (ofs + 2) (by omega),
      getD_congr_suffix a b t hab (ofs + 3) (by omega)]
  · rfl

theorem drop_congr_suffix (a b t : List Nat) (hab : a.length = b.length) (i : Nat)
    (hi : a.length ≤ i) : (a ++ t).drop i = (b ++ t).drop i := by
  have h1 : (a ++ t).drop i = t.drop (i - a.length) := by
    conv_lhs => rw [show i = a.length + (i - a.length) from by omega]
    rw [List.drop_append]
  have h2 : (b ++ t).drop i = t.drop (i - b.length) := by
    conv_lhs => rw [show i = b.length + (i - b.length) from by omega]
    rw [List.drop_append]
  rw [h1, h2, hab]

theorem dec_string_congr (a b t : List Nat) (hab : a.length = b.length) (ofs : Nat)
    (hofs : a.length ≤ ofs) : dec_string (a ++ t) ofs = dec_string (b ++ t) ofs := by
  unfold dec_string
  rw [rd_u32_congr a b t hab ofs hofs]
  rcases hr : rd_u32 (b ++ t) ofs with er | p
  · rfl
  · obtain ⟨len, o⟩ := p
    dsimp only
    have := rd_u32_mono hr
    rw [drop_congr_suffix a b t hab o (by omega)]

theorem dec_bool_congr (a b t : List Nat) (hab : a.length = b.length) (ofs : Nat)
    (hofs : a.length ≤ ofs) : dec_bool (a ++ t) ofs = dec_bool (b ++ t) ofs := by
  unfold dec_bool
  have hl : (a ++ t).length = (b ++ t).length := by simp [hab]
  rw [hl, getD_congr_suffix a b t hab ofs hofs]

theorem dec_int_congr (a b t : List Nat) (hab : a.length = b.length) (ofs : Nat)
    (hofs : a.length ≤ ofs) : dec_int (a ++ t) ofs = dec_int (b ++ t) ofs := by
  unfold dec_int
  rw [rd_u32_congr a b t hab ofs hofs]

theorem dec_double_congr (a b t : List Nat) (hab : a.length = b.length) (ofs : Nat)
    (hofs : a.length ≤ ofs) : dec_double (a ++ t) ofs = dec_double (b ++ t) ofs := by
  unfold dec_double
  rw [rd_u32_congr a b t hab ofs hofs]
  rcases hr : rd_u32 (b ++ t) ofs with er | p
  · rfl
  · obtain ⟨eu, o⟩ := p
    dsimp only
    have := rd_u32_mono hr
    rw [rd_u32_congr a b t hab o (by omega)]

theorem decElems_congr (a b t : List Nat) (_hab : a.length = b.length)
    (dec : List Nat → Nat → Except DecErr (Value × Nat))
    (hmono : ∀ buf ofs v o, dec buf ofs = .ok (v, o) → ofs ≤ o)
    (hcongr : ∀ ofs, a.length ≤ ofs → dec (a ++ t) ofs = dec (b ++ t) ofs) :
    ∀ (n ofs : Nat) (acc : List Value), a.length ≤ ofs →
    decElems dec n (a ++ t) ofs acc = decElems dec n (b ++ t) ofs acc := by
  intro n
  induction n with
  | zero =>
    intro ofs acc h
    rfl
  | succ n ihn =>
    intro ofs acc h
    unfold decElems
    rw [hcongr ofs h]
    rcases hd : dec (b ++ t) ofs with er | p
    · rfl
    · obtain ⟨v, o⟩ := p
      dsimp only
      exact ihn o (acc ++ [v]) (le_trans h (hmono _ _ _ _ hd))

theorem decEntries_congr (a b t : List Nat) (hab : a.length = b.length)
    (dec : List Nat → Nat → Except DecErr (Value × Nat))
    (hmono : ∀ buf ofs v o, dec buf ofs = .ok (v, o) → ofs ≤ o)
    (hcongr : ∀ ofs, a.length ≤ ofs → dec (a ++ t) ofs = dec (b ++ t) ofs) :
    ∀ (n ofs : Nat) (acc : List (List Nat × Value)), a.length ≤ ofs →
    decEntries dec n (a ++ t) ofs acc = decEntries dec n (b ++ t) ofs acc := by
  intro n
  induction n with
  | zero =>
    intro ofs acc h
    rfl
  | succ n ihn =>
    intro ofs acc h
    unfold decEntries
    rw [dec_string_congr a b t hab ofs h]
    rcases hs : dec_string (b ++ t) ofs with er | p
    · rfl
    · obtain ⟨k, o⟩ := p
      dsimp only
      have h1 : a.length ≤ o := le_trans h (dec_string_mono hs)
      rw [hcongr o h1]
      rcases hd : dec (b ++ t) o with er | p2
      · rfl
      · obtain ⟨v, o2⟩ := p2
        dsimp only
        exact ihn o2 (dict_insert acc k v) (le_trans h1 (hmono _ _ _ _ hd))

theorem decData_congr :
    ∀ (fuel : Nat) (a b t : List Nat), a.length = b.length →
    ∀ ofs, a.length ≤ ofs →
    decData fuel (a ++ t) ofs = decData fuel (b ++ t) ofs := by
  intro fuel
  induction fuel with
  | zero =>
    intro a b t hab ofs h
    rfl
  | succ fuel ih =>
    intro a b t hab ofs h
    simp only [decData]
    rw [rd_u32_congr a b t hab ofs h]
    rcases hr : rd_u32 (b ++ t) ofs with er | p
    · rfl
    · obtain ⟨tag, o⟩ := p
      dsimp only
      have hlo : a.length ≤ o := le_trans h (rd_u32_mono hr)
      by_cases ht1 : tag = T_STRING
      · rw [if_pos ht1, if_pos ht1, dec_string_congr a b t hab o hlo]
      rw [if_neg ht1, if_neg ht1]
      by_cases ht2 : tag = T_BOOL
      · rw [if_pos ht2, if_pos ht2, dec_bool_congr a b t hab o hlo]
      rw [if_neg ht2, if_neg ht2]
      by_cases ht3 : tag = T_INTEGER
      · rw [if_pos ht3, if_pos ht3, dec_int_congr a b t hab o hlo]
      rw [if_neg ht3, if_neg ht3]
      by_cases ht4 : tag = T_DOUBLE
      · rw [if_pos ht4, if_pos ht4, dec_double_congr a b t hab o hlo]
      rw [if_neg ht4, if_neg ht4]
      by_cases ht5 : tag = T_ARRAY
      · rw [if_pos ht5, if_pos ht5, rd_u32_congr a b t hab o hlo]
        rcases hn : rd_u32 (b ++ t) o with er | q
        · rfl
        · obtain ⟨n2, o2⟩ := q
          dsimp only
          have hlo2 : a.length ≤ o2 := le_trans hlo (rd_u32_mono hn)
          rw [decElems_congr a b t hab (fun b2 o3 => decData fuel b2 o3)
            (fun b4 o4 v4 o5 h4 => decData_mono fuel b4 o4 v4 o5 h4)
            (fun o3 h3 => ih a b t hab o3 h3) n2 o2 [] hlo2]
      rw [if_neg ht5, if_neg ht5]
      by_cases ht6 : tag = T_STRUCT
      · rw [if_pos ht6, if_pos ht6, rd_u32_congr a b t hab o hlo]
        rcases hn : rd_u32 (b ++ t) o with er | q
        · rfl
        · obtain ⟨n2, o2⟩ := q
          dsimp only
          have hlo2 : a.length ≤ o2 := le_trans hlo (rd_u32_mono hn)
          rw [decEntries_congr a b t hab (fun b2 o3 => decData fuel b2 o3)
            (fun b4 o4 v4 o5 h4 => decData_mono fuel b4 o4 v4 o5 h4)
            (fun o3 h3 => ih a b t hab o3 h3) n2 o2 [] hlo2]
      rw [if_neg ht6, if_neg ht6]

/-- C6: two response frames identical except in the 4-byte status-code
field decode to equal results — a non-zero status code does not suppress
payload decoding, is not surfaced as a distinct error kind, and the
payload, if present, is still returned. -/
theorem c6_status_code_ignored (hdr s1 s2 rest : List Nat)
    (hh : hdr.length = 8) (h1 : s1.length = 4) (h2 : s2.length = 4) :
    dec_response (hdr ++ (s1 ++ rest)) = dec_response (hdr ++ (s2 ++ rest)) := by
  unfold dec_response
  have hlen : (hdr ++ (s1 ++ rest)).length = (hdr ++ (s2 ++ rest)).length := by
    simp [h1, h2]
  have htake : (hdr ++ (s1 ++ rest)).take 4 = (hdr ++ (s2 ++ rest)).take 4 := by
    rw [List.take_append_of_le_length (by omega), List.take_append_of_le_length (by omega)]
  have hmid : ((hdr ++ (s1 ++ rest)).drop 4).take 4 =
      ((hdr ++ (s2 ++ rest)).drop 4).take 4 := by
    rw [List.drop_append_of_le_length (by omega), List.drop_append_of_le_length (by omega)]
    rw [List.take_append_of_le_length (by simp [hh]),
      List.take_append_of_le_length (by simp [hh])]
  have hbody1 : (hdr ++ (s1 ++ rest)).drop 8 = s1 ++ rest := by
    rw [← hh, List.drop_left]
  have hbody2 : (hdr ++ (s2 ++ rest)).drop 8 = s2 ++ rest := by
    rw [← hh, List.drop_left]
  rw [hlen, htake, hmid, hbody1, hbody2]
  by_cases hc1 : (hdr ++ (s2 ++ rest)).length < 8
  · rw [if_pos hc1, if_pos hc1]
  rw [if_neg hc1, if_neg hc1]
  by_cases hc2 : (hdr ++ (s2 ++ rest)).take 4 ≠ HDR_RES
  · rw [if_pos hc2, if_pos hc2]
  rw [if_neg hc2, if_neg hc2]
  by_cases hc3 : ((hdr ++ (s2 ++ rest)).drop 4).take 4 ≠ be_u32 (hdr ++ (s2 ++ rest)).length
  · rw [if_pos hc3, if_pos hc3]
  rw [if_neg hc3, if_neg hc3]
  have hu1 : rd_u32 (s1 ++ rest) 0 = .ok ((s1 ++ rest).getD 0 0 * 16777216 +
      (s1 ++ rest).getD (0 + 1) 0 * 65536 + (s1 ++ rest).getD (0 + 2) 0 * 256 +
      (s1 ++ rest).getD (0 + 3) 0, 0 + 4) := by
    unfold rd_u32
    rw [if_pos (by simp [h1])]
  have hu2 : rd_u32 (s2 ++ rest) 0 = .ok ((s2 ++ rest).getD 0 0 * 16777216 +
      (s2 ++ rest).getD (0 + 1) 0 * 65536 + (s2 ++ rest).getD (0 + 2) 0 * 256 +
      (s2 ++ rest).getD (0 + 3) 0, 0 + 4) := by
    unfold rd_u32
    rw [if_pos (by simp [h2])]
  rw [hu1, hu2]
  dsimp only
  have hsl : (s1 ++ rest).length = (s2 ++ rest).length := by simp [h1, h2]
  rw [hsl]
  by_cases hge : 0 + 4 ≥ (s2 ++ rest).length
  · rw [if_pos hge, if_pos hge]
  rw [if_neg hge, if_neg hge]
  have hdd : dec_data (s1 ++ rest) (0 + 4) = dec_data (s2 ++ rest) (0 + 4) := by
    unfold dec_data
    rw [hsl]
    exact decData_congr ((s2 ++ rest).length + 1) s1 s2 rest (by omega) (0 + 4) (by omega)
  rw [hdd]

/-- Witness for C6 at two 20-byte frames carrying an empty-string payload,
one with status 0, the other with status 9. -/
theorem c6_status_code_ignored_witness :
    dec_response ((HDR_RES ++ be_u32 20) ++ ([0, 0, 0, 0] ++ [0, 0, 0, 3, 0, 0, 0, 0])) =
      dec_response ((HDR_RES ++ be_u32 20) ++ ([0, 0, 0, 9] ++ [0, 0, 0, 3, 0, 0, 0, 0])) ∧
    dec_response ((HDR_RES ++ be_u32 20) ++ ([0, 0, 0, 9] ++ [0, 0, 0, 3, 0, 0, 0, 0])) =
      .ok (some (.str [])) :=
  ⟨c6_status_code_ignored (HDR_RES ++ be_u32 20) [0, 0, 0, 0] [0, 0, 0, 9]
    [0, 0, 0, 3, 0, 0, 0, 0] rfl rfl rfl, rfl⟩


/-- Reading back an encoded double: exponent recovered through the signed
reinterpretation, mantissa read unsigned. -/
theorem dec_double_at2 (buf pre t : List Nat) (e m : ℤ) (ofs : Nat)
    (he1 : -(2 ^ 31) ≤ e) (he2 : e < 2 ^ 31) (hm1 : 0 ≤ m) (hm2 : m < 2 ^ 32)
    (hbuf : buf = pre ++ (be_u32 ((e % (2 ^ 32)).toNat) ++
      (be_u32 ((m % (2 ^ 32)).toNat) ++ t)))
    (hofs : ofs = pre.length) :
    dec_double buf ofs = .ok (((m : ℚ) / 2 ^ 30) * (2 : ℚ) ^ e, ofs + 8) := by
  subst hofs
  unfold dec_double
  rw [rd_u32_at2 buf pre (be_u32 ((m % (2 ^ 32)).toNat) ++ t) ((e % (2 ^ 32)).toNat)
    pre.length (by omega) hbuf rfl]
  dsimp only
  rw [rd_u32_at2 buf (pre ++ be_u32 ((e % (2 ^ 32)).toNat)) t ((m % (2 ^ 32)).toNat)
    (pre.length + 4) (by omega) (by rw [hbuf]; simp [List.append_assoc])
    (by simp [be_u32])]
  dsimp only
  have hEeq : (if ((e % (2 ^ 32)).toNat &&& 0x80000000 ≠ 0)
      then (((e % (2 ^ 32)).toNat : ℤ)) - 2 ^ 32
      else (((e % (2 ^ 32)).toNat : ℤ))) = e := by
    by_cases hb : ((e % (2 ^ 32)).toNat &&& 0x80000000 ≠ 0)
    · rw [if_pos hb]
      rw [and_bit31] at hb
      omega
    · rw [if_neg hb]
      rw [and_bit31] at hb
      omega
  rw [hEeq]
  have hmu : (((m % (2 ^ 32)).toNat : ℚ)) = ((m : ℚ)) := by
    have h1 : m % (2 ^ 32) = m := by omega
    rw [h1]
    have h2 : ((m.toNat : ℤ) : ℚ) = ((m : ℤ) : ℚ) := by
      rw [Int.toNat_of_nonneg hm1]
    exact_mod_cast h2
  rw [hmu]

/-- C3 counterexample: the double `-1.0` encodes (exponent 1, mantissa
`-2^29` masked to `0xE0000000`) and, because `_dec_double` reads the
mantissa back *unsigned*, decodes to `7.0` — not within any relative
tolerance of `-1.0` (the error exceeds 100 percent of the magnitude).
Negative doubles therefore do not round-trip. -/
theorem c3_negative_double_counterexample :
    dec_double (enc_double (-1)) 4 = .ok (7, 12) ∧
    ¬(|(7 : ℚ) - (-1)| ≤ |(-1 : ℚ)|) := by
  constructor
  · have h : enc_double_parts (-1) = (-536870912, 1) := by
      rw [enc_double_parts]
      norm_num [truncQ, Int.log_one_right]
    have hb : enc_double (-1) = [0, 0, 0, 4, 0, 0, 0, 1, 224, 0, 0, 0] := by
      rw [enc_double, h]
      rfl
    rw [hb]
    simp only [dec_double, rd_u32]
    norm_num [List.getD]
  · norm_num

/-- C3 amended: for every positive rational `v` (whose exponent fits the
packed 32-bit signed field), decoding the encoding of `v` via `enc_double`
then `_dec_double` recovers a value within the relative tolerance `2^-29`
of `v` — from below, since the mantissa is truncated.  Negative values are
excluded: the counterexample shows they decode to garbage because the
mantissa is stored two's-complement-masked but read back unsigned. -/
theorem c3_double_roundtrip_pos (v : ℚ) (hv : 0 < v)
    (hlo : -(2 ^ 31) ≤ Int.log 2 |v| + 1) (hhi : Int.log 2 |v| + 1 < 2 ^ 31) :
    ∃ w : ℚ, dec_double (enc_double v) 4 = .ok (w, 12) ∧ w ≤ v ∧ v - w < v / 2 ^ 29 := by
  have hne : v ≠ 0 := ne_of_gt hv
  have hav : |v| = v := abs_of_pos hv
  rw [hav] at hlo hhi
  set E : ℤ := Int.log 2 v + 1 with hE
  set X : ℚ := v * (2 : ℚ) ^ (-E) * 2 ^ 30 with hX
  have hXpos : 0 < X := by
    rw [hX]
    positivity
  have hle : (2 : ℚ) ^ (E - 1) ≤ v := by
    have h0 := Int.zpow_log_le_self (b := 2) one_lt_two hv
    rwa [show E - 1 = Int.log 2 v from by omega]
  have hlt : v < (2 : ℚ) ^ E := by
    have h0 := Int.lt_zpow_succ_log_self (b := 2) one_lt_two v
    rwa [show Int.log 2 v + 1 = E from hE.symm] at h0
  have hn30 : (2 : ℚ) ^ (30 : ℕ) = (2 : ℚ) ^ ((30 : ℤ)) := by
    rw [← zpow_natCast]
    norm_num
  have hn29 : (2 : ℚ) ^ (29 : ℕ) = (2 : ℚ) ^ ((29 : ℤ)) := by
    rw [← zpow_natCast]
    norm_num
  have hX29 : (2 : ℚ) ^ (29 : ℤ) ≤ X := by
    have hzne : (0 : ℚ) ≤ (2 : ℚ) ^ (-E) * 2 ^ 30 := by positivity
    calc (2 : ℚ) ^ (29 : ℤ) = (2 : ℚ) ^ (E - 1) * ((2 : ℚ) ^ (-E) * 2 ^ 30) := by
          rw [hn30, ← zpow_add₀ (two_ne_zero), ← zpow_add₀ (two_ne_zero)]
          congr 1
          ring
      _ ≤ v * ((2 : ℚ) ^ (-E) * 2 ^ 30) := mul_le_mul_of_nonneg_right hle hzne
      _ = X := by rw [hX]; ring
  have hX30 : X < (2 : ℚ) ^ (30 : ℤ) := by
    have hzpos : (0 : ℚ) < (2 : ℚ) ^ (-E) * 2 ^ 30 := by positivity
    calc X = v * ((2 : ℚ) ^ (-E) * 2 ^ 30) := by rw [hX]; ring
      _ < (2 : ℚ) ^ E * ((2 : ℚ) ^ (-E) * 2 ^ 30) := mul_lt_mul_of_pos_right hlt hzpos
      _ = (2 : ℚ) ^ (30 : ℤ) := by
          rw [hn30, ← zpow_add₀ (two_ne_zero), ← zpow_add₀ (two_ne_zero)]
          congr 1
          ring
  have hm29 : (2 ^ 29 : ℤ) ≤ ⌊X⌋ := by
    rw [Int.le_floor]
    calc ((2 ^ 29 : ℤ) : ℚ) = (2 : ℚ) ^ (29 : ℤ) := by norm_num
      _ ≤ X := hX29
  have hm30 : ⌊X⌋ < 2 ^ 30 := by
    rw [Int.floor_lt]
    calc X < (2 : ℚ) ^ (30 : ℤ) := hX30
      _ = ((2 ^ 30 : ℤ) : ℚ) := by norm_num
  have hm : enc_double_parts v = (⌊X⌋, E) := by
    rw [enc_double_parts, if_neg hne]
    dsimp only
    rw [hav]
    rw [show Int.log 2 v + 1 = E from hE.symm]
    rw [show v * (2 : ℚ) ^ (-E) * 2 ^ 30 = X from hX.symm]
    rw [truncQ, if_neg (not_lt.2 hXpos.le)]
  have henc : enc_double v = be_u32 T_DOUBLE ++ (be_u32 ((E % (2 ^ 32)).toNat) ++
      be_u32 ((⌊X⌋ % (2 ^ 32)).toNat)) := by
    rw [enc_double, hm]
    simp [List.append_assoc]
  have hveq : X / 2 ^ 30 * (2 : ℚ) ^ E = v := by
    rw [hX, zpow_neg]
    have hEne : ((2 : ℚ) ^ E) ≠ 0 := ne_of_gt (zpow_pos (by norm_num) E)
    field_simp
    ring
  have hdd : dec_double (enc_double v) 4 =
      .ok (((⌊X⌋ : ℚ)) / 2 ^ 30 * (2 : ℚ) ^ E, 12) :=
    dec_double_at2 (enc_double v) (be_u32 T_DOUBLE) [] E ⌊X⌋ 4 hlo hhi
      (by omega) (by omega) (by rw [henc]; simp [List.append_assoc]) (by simp [be_u32])
  refine ⟨((⌊X⌋ : ℚ)) / 2 ^ 30 * (2 : ℚ) ^ E, hdd, ?_, ?_⟩
  · have h1 : ((⌊X⌋ : ℚ)) / 2 ^ 30 ≤ X / 2 ^ 30 := by
      rw [div_le_div_iff_of_pos_right (by positivity)]
      exact Int.floor_le X
    calc ((⌊X⌋ : ℚ)) / 2 ^ 30 * (2 : ℚ) ^ E ≤ X / 2 ^ 30 * (2 : ℚ) ^ E :=
        mul_le_mul_of_nonneg_right h1 (le_of_lt (zpow_pos (by norm_num) E))
      _ = v := hveq
  · have hwv : v - ((⌊X⌋ : ℚ)) / 2 ^ 30 * (2 : ℚ) ^ E =
        (X - ((⌊X⌋ : ℚ))) / 2 ^ 30 * (2 : ℚ) ^ E := by
      rw [← hveq]
      ring
    rw [hwv]
    have hfr : X - ((⌊X⌋ : ℚ)) < 1 := by
      rw [Int.self_sub_floor]
      exact Int.fract_lt_one X
    have hstep : (X - ((⌊X⌋ : ℚ))) / 2 ^ 30 * (2 : ℚ) ^ E <
        1 / 2 ^ 30 * (2 : ℚ) ^ E := by
      have hdiv : (X - ((⌊X⌋ : ℚ))) / 2 ^ 30 < 1 / 2 ^ 30 := by
        rw [div_lt_div_iff_of_pos_right (by positivity)]
        exact hfr
      exact mul_lt_mul_of_pos_right hdiv (zpow_pos (by norm_num) E)
    have hfinal : 1 / (2 : ℚ) ^ (30 : ℕ) * (2 : ℚ) ^ E ≤ v / 2 ^ 29 := by
      have hre : 1 / (2 : ℚ) ^ (30 : ℕ) * (2 : ℚ) ^ E = (2 : ℚ) ^ (E - 1) / 2 ^ 29 := by
        rw [hn30, hn29, div_eq_mul_inv, div_eq_mul_inv, ← zpow_neg, ← zpow_neg, one_mul,
          ← zpow_add₀ (two_ne_zero), ← zpow_add₀ (two_ne_zero)]
        congr 1
        ring
      rw [hre]
      rw [div_le_div_iff_of_pos_right (by positivity)]
      exact hle
    exact lt_of_lt_of_le hstep hfinal

/-- Witness for the amended C3 at `v = 1`, which encodes exactly
(exponent 1, mantissa `2^29`) and decodes to exactly 1. -/
theorem c3_double_roundtrip_pos_witness :
    ∃ w : ℚ, dec_double (enc_double 1) 4 = .ok (w, 12) ∧ w ≤ 1 ∧ 1 - w < 1 / 2 ^ 29 :=
  c3_double_roundtrip_pos 1 (by norm_num)
    (by norm_num [Int.log_one_right]) (by norm_num [Int.log_one_right])


end BinRpc
